import Mathlib

/-!
Verification development for the `rocco` literate-programming renderer
(`src/lib.rs`, `src/error.rs`).

Rust strings are embedded as `List Char`; the line stream produced by
`BufReader::lines().peekable()` is embedded as a `List LineRes`, where each
element is either a successfully read line (`LineRes.ok`, the line text
without its terminating newline, exactly as `BufRead::lines` delivers it) or
a failed read (`LineRes.err`; the payload of the `io::Error` is irrelevant
to control flow and is dropped).

The outer `while let Some(Ok(..)) = lines.peek()` loop of `Docco::parse` is
not structurally recursive (a whole iteration may consume no input line), so
it is embedded with an explicit fuel parameter: `none` means the fuel ran
out, i.e. the Rust loop has not terminated within that many iterations.
-/

set_option autoImplicit false

namespace Rocco

/-- One documentation/code section, as in `struct Section` of `lib.rs`
(fields `num`, `docs_html`, `code_html`). -/
structure Section where
  num : Nat
  docs_html : List Char
  code_html : List Char
deriving DecidableEq, Repr

/-- The error enumeration of `src/error.rs`.  Payloads that only carry
human-readable messages are dropped; `UnsupportedExt` keeps its extension
string payload. -/
inductive Error where
  | Io
  | RenderFailed
  | InvalidTemplateSource
  | InvalidSourceFile
  | LangMapInitFailed
  | DocParseFailed
  | UnsupportedExt (ext : List Char)
  | NoExtension
deriving DecidableEq, Repr

/-- One element of the peekable line stream: `io::Result<String>`. -/
inductive LineRes where
  | ok (l : List Char)
  | err
deriving DecidableEq, Repr

/-- Embeds `str::trim_start` (leading-whitespace removal).  `Char.isWhitespace`
agrees with Rust `char::is_whitespace` on ASCII, which covers every
character classified as whitespace by the inputs this program handles. -/
def trimStartL (l : List Char) : List Char :=
  l.dropWhile fun c => c.isWhitespace

/-- Trailing-whitespace removal (the right half of `str::trim`). -/
def trimEndL (l : List Char) : List Char :=
  (l.reverse.dropWhile fun c => c.isWhitespace).reverse

/-- Embeds `str::trim`: whitespace removed from both ends. -/
def trimL (l : List Char) : List Char :=
  trimEndL (trimStartL l)

/-- Embeds `str::starts_with` with a string pattern. -/
def strStartsWith : List Char → List Char → Bool
  | _, [] => true
  | [], _ :: _ => false
  | c :: cs, p :: ps => c = p && strStartsWith cs ps

/-- Embeds `str::ends_with`. -/
def strEndsWith (s p : List Char) : Bool :=
  strStartsWith s.reverse p.reverse

/-- Iteration core of `str::trim_start_matches`: repeatedly remove the
pattern from the front.  Each successful removal with a non-empty pattern
strips at least one character, so `s.length` rounds of fuel always
suffice. -/
def trimStartMatchesAux (pat : List Char) : Nat → List Char → List Char
  | 0, s => s
  | n + 1, s =>
    if strStartsWith s pat then trimStartMatchesAux pat n (s.drop pat.length)
    else s

/-- Embeds `str::trim_start_matches(pat)`: all leading occurrences of `pat`
repeatedly removed.  (With an empty pattern Rust removes nothing; the
delimiters in the language table are never empty.) -/
def trimStartMatchesL (s pat : List Char) : List Char :=
  if pat = [] then s else trimStartMatchesAux pat s.length s

/-- Iteration core of `str::replace`: scan left to right, replacing each
non-overlapping occurrence of `pat` by `rep`.  Each step consumes at least
one character of `s` when `pat` is non-empty, so `s.length` rounds of fuel
always suffice. -/
def rustReplaceAux (pat rep : List Char) : Nat → List Char → List Char
  | 0, s => s
  | _ + 1, [] => []
  | n + 1, c :: rest =>
    if strStartsWith (c :: rest) pat then
      rep ++ rustReplaceAux pat rep n ((c :: rest).drop pat.length)
    else c :: rustReplaceAux pat rep n rest

/-- Embeds `String::replace(pat, rep)` for a non-empty pattern (the program only
ever uses the one-character patterns `"<"` and `">"`; Rust's empty-pattern
behaviour is not modelled). -/
def rustReplace (s pat rep : List Char) : List Char :=
  if pat = [] then s else rustReplaceAux pat rep s.length s

/-- The two `replace` calls of `parse_code`:
`next_line.replace("<", "&lt").replace(">", "&gt")`. -/
def escapeLine (l : List Char) : List Char :=
  rustReplace (rustReplace l ['<'] ['&', 'l', 't']) ['>'] ['&', 'g', 't']

/-- Embeds `Docco::parse_code`: consume lines while the next line, after
leading-whitespace trimming, neither starts with the comment delimiter nor
is empty; append each consumed line HTML-escaped, plus a newline unless the
trimmed line already ends in one.  Stops (without consuming) at the first
non-matching line, at a failed read (`peek` not `Some(Ok(..))`), or at end
of input; always returns `Ok`, so only the remaining stream and the buffer
are returned. -/
def parse_code (sym : List Char) : List LineRes → List Char → List LineRes × List Char
  | [], buf => ([], buf)
  | LineRes.err :: rest, buf => (LineRes.err :: rest, buf)
  | LineRes.ok l :: rest, buf =>
    if strStartsWith (trimStartL l) sym = false ∧ trimStartL l ≠ [] then
      let buf1 := buf ++ escapeLine l
      let buf2 := if strEndsWith (trimStartL l) ['\n'] then buf1 else buf1 ++ ['\n']
      parse_code sym rest buf2
    else (LineRes.ok l :: rest, buf)

/-- Embeds `Docco::parse_doc`: consume lines while the next line, trimmed on both
ends, starts with the comment delimiter.  A line whose trimmed form starts
with `///` is appended as `trim_start()` of the line, verbatim; otherwise
`trim_start().trim_start_matches(delimiter)` is appended.  A newline is
appended after every consumed line.  Stops at the first non-matching line,
failed read, or end of input; always returns `Ok`. -/
def parse_doc (sym : List Char) : List LineRes → List Char → List LineRes × List Char
  | [], buf => ([], buf)
  | LineRes.err :: rest, buf => (LineRes.err :: rest, buf)
  | LineRes.ok l :: rest, buf =>
    if strStartsWith (trimL l) sym then
      if strStartsWith (trimL l) ['/', '/', '/'] then
        parse_doc sym rest (buf ++ trimStartL l ++ ['\n'])
      else
        parse_doc sym rest (buf ++ trimStartMatchesL (trimStartL l) sym ++ ['\n'])
    else (LineRes.ok l :: rest, buf)

/-- The outer loop of `Docco::parse`, with `md` the Markdown renderer
(`comrak::markdown_to_html` with default options, an external pure
function) and `idx` the local section counter.  One unit of fuel is spent
per outer-loop iteration; `none` means the loop did not finish within the
given fuel. -/
def parseLoop (md : List Char → List Char) (sym : List Char) :
    Nat → List LineRes → Nat → Option (List Section)
  | 0, _, _ => none
  | fuel + 1, ls, idx =>
    match ls with
    | [] => some []
    | LineRes.err :: _ => some []
    | LineRes.ok l :: rest =>
      if l = [] then parseLoop md sym fuel rest idx
      else
        match parseLoop md sym fuel
            (parse_code sym (parse_doc sym (LineRes.ok l :: rest) []).1 []).1
            (idx + 1) with
        | none => none
        | some secs =>
          some ({ num := idx
                  docs_html := md (parse_doc sym (LineRes.ok l :: rest) []).2
                  code_html :=
                    (parse_code sym (parse_doc sym (LineRes.ok l :: rest) []).1 []).2 }
              :: secs)

/-- Split a character list on a separator character (`str::split`). -/
def splitOnChar (c : Char) : List Char → List (List Char)
  | [] => [[]]
  | x :: xs =>
    match splitOnChar c xs with
    | [] => [[]]
    | h :: t => if x = c then [] :: h :: t else (x :: h) :: t

/-- The final path component, as `Path::file_name` computes it for a path
whose last component is a normal file name (the only shape the claims
exercise). -/
def fileNameOf (p : List Char) : List Char :=
  (splitOnChar '/' p).getLastD []

/-- Split a list at the LAST occurrence of `c`: `some (before, after)`
when `c` occurs, `none` otherwise. -/
def rsplitLast (c : Char) : List Char → Option (List Char × List Char)
  | [] => none
  | x :: xs =>
    match rsplitLast c xs with
    | some (pre, post) => some (x :: pre, post)
    | none => if x = c then some ([], xs) else none

/-- Embeds `Path::file_stem` and `Path::extension` of a file name, together:
the portion before / after the final `.`, where a leading `.` (hidden
file) does not count as a separator and a dotless name has no
extension. -/
def fileStemExt (f : List Char) : Option (List Char × Option (List Char)) :=
  match f with
  | [] => none
  | x :: rest =>
    if x = '.' then
      match rsplitLast '.' rest with
      | none => some (f, none)
      | some (pre, post) => some (x :: pre, some post)
    else
      match rsplitLast '.' f with
      | none => some (f, none)
      | some (pre, post) => some (pre, some post)

/-- A language-table entry: `struct Language` of `lib.rs`. -/
structure Language where
  name : List Char
  comment : List Char
deriving DecidableEq, Repr

/-- Modelled from the spec: the embedded asset `assets/languages.json`
(the static extension → language table) is not under `src/`.  Entries for
the extensions the repository's tests exercise, with the delimiters the
spec names for them (`"//"` for Rust and Go, `"#"` for Ruby and Python). -/
def LANGUAGES : List (List Char × Language) :=
  [ (['r', 's'], ⟨['R', 'u', 's', 't'], ['/', '/']⟩)
  , (['g', 'o'], ⟨['G', 'o'], ['/', '/']⟩)
  , (['r', 'b'], ⟨['R', 'u', 'b', 'y'], ['#']⟩)
  , (['p', 'y'], ⟨['P', 'y', 't', 'h', 'o', 'n'], ['#']⟩) ]

/-- Association-list lookup, as `HashMap::get` over the language table. -/
def lookupLang (tbl : List (List Char × Language)) (ext : List Char) :
    Option Language :=
  match tbl with
  | [] => none
  | (k, v) :: rest => if k = ext then some v else lookupLang rest ext

/-- The fields of `struct Docco` populated by `Docco::new` that the
segmenter and renderer consume (the embedded CSS/HTML assets are not under
`src/` and none of the claims mention them, so they are omitted). -/
structure DoccoCfg where
  sections : List Section
  filename : List Char
  output : List Char
  language : List Char
  extension : List Char
  doc_symbol : List Char
deriving DecidableEq, Repr

/-- Embeds `Docco::new`.  Filesystem queries are embedded as the boolean
parameters `sourceIsFile` (`source.is_file()`) and `outputIsDir`
(`output.is_dir()`).  Mirrors the source order: reject a non-file source,
resolve the output path (directory output and defaulted output both use
the source's `file_stem`, failing with `InvalidSourceFile` when it cannot
be determined), then resolve the language from the extension — a source
path without an extension returns `InvalidSourceFile`, an extension
missing from the table `UnsupportedExt ext`. -/
def Docco.new (tbl : List (List Char × Language)) (sourceIsFile : Bool)
    (source : List Char) (output : Option (List Char)) (outputIsDir : Bool) :
    Except Error DoccoCfg :=
  if sourceIsFile = false then Except.error Error.InvalidSourceFile
  else
    let sourceStr := source
    let stemExt := fileStemExt (fileNameOf source)
    let outputRes : Except Error (List Char) :=
      match output with
      | some outp =>
        if outputIsDir then
          match stemExt with
          | none => Except.error Error.InvalidSourceFile
          | some (stem, _) =>
            Except.ok (outp ++ ['/'] ++ stem ++ ['.', 'h', 't', 'm', 'l'])
        else Except.ok outp
      | none =>
        match stemExt with
        | none => Except.error Error.InvalidSourceFile
        | some (stem, _) => Except.ok (stem ++ ['.', 'h', 't', 'm', 'l'])
    match outputRes with
    | Except.error e => Except.error e
    | Except.ok out =>
      match stemExt with
      | some (_, some ext) =>
        match lookupLang tbl ext with
        | none => Except.error (Error.UnsupportedExt ext)
        | some lang =>
          Except.ok
            { sections := []
              filename := sourceStr
              output := out
              language := lang.name
              extension := ext
              doc_symbol := lang.comment }
      | _ => Except.error Error.InvalidSourceFile

/-- Embeds `Docco::parse`: open the file (`openRes = none` embeds a failed
`OpenOptions::open`, the only `?` in the function body that can fire), then
run the outer loop with the section counter starting at 0, appending the
produced sections to the sections already stored on the document
(`self.sections.push` never clears).  The outer `Option` is the fuel
bound; the inner `Except` is the Rust `Result`. -/
def Docco.parse (md : List Char → List Char) (sym : List Char)
    (secs0 : List Section) (fuel : Nat) (openRes : Option (List LineRes)) :
    Option (Except Error (List Section)) :=
  match openRes with
  | none => some (Except.error Error.Io)
  | some ls => (parseLoop md sym fuel ls 0).map fun out => Except.ok (secs0 ++ out)

/-- The spec's words for the ordinary documentation-line transformation:
"the text trimmed of leading whitespace and with the single
comment-delimiter prefix removed" — exactly one occurrence of the
delimiter stripped from the front.  Stated for comparison with what
`parse_doc` (translated from the source) actually appends. -/
def stripDelimOnce (sym l : List Char) : List Char :=
  if strStartsWith l sym then l.drop sym.length else l

/-- Per-character angle-bracket escaping: the claimed effect of the two
`replace` calls, stated character by character. -/
def escChar (c : Char) : List Char :=
  if c = '<' then ['&', 'l', 't']
  else if c = '>' then ['&', 'g', 't']
  else [c]

/-- Concatenated per-character expansion (for stating the escaping claim
without relying on library `flatMap` lemmas). -/
def concatMapL (f : Char → List Char) : List Char → List Char
  | [] => []
  | c :: cs => f c ++ concatMapL f cs

/-- Like `parse_code`, additionally returning the list of stream elements it
consumed (third component).  The first two components coincide with
`parse_code` (proved below); the third is the instrumentation the
line-accounting claim is stated with. -/
def parse_codeR (sym : List Char) :
    List LineRes → List Char → List LineRes × List Char × List LineRes
  | [], buf => ([], buf, [])
  | LineRes.err :: rest, buf => (LineRes.err :: rest, buf, [])
  | LineRes.ok l :: rest, buf =>
    if strStartsWith (trimStartL l) sym = false ∧ trimStartL l ≠ [] then
      let buf1 := buf ++ escapeLine l
      let buf2 := if strEndsWith (trimStartL l) ['\n'] then buf1 else buf1 ++ ['\n']
      let r := parse_codeR sym rest buf2
      (r.1, r.2.1, LineRes.ok l :: r.2.2)
    else (LineRes.ok l :: rest, buf, [])

/-- Like `parse_doc`, additionally returning the list of stream elements it
consumed (third component). -/
def parse_docR (sym : List Char) :
    List LineRes → List Char → List LineRes × List Char × List LineRes
  | [], buf => ([], buf, [])
  | LineRes.err :: rest, buf => (LineRes.err :: rest, buf, [])
  | LineRes.ok l :: rest, buf =>
    if strStartsWith (trimL l) sym then
      if strStartsWith (trimL l) ['/', '/', '/'] then
        let r := parse_docR sym rest (buf ++ trimStartL l ++ ['\n'])
        (r.1, r.2.1, LineRes.ok l :: r.2.2)
      else
        let r := parse_docR sym rest (buf ++ trimStartMatchesL (trimStartL l) sym ++ ['\n'])
        (r.1, r.2.1, LineRes.ok l :: r.2.2)
    else (LineRes.ok l :: rest, buf, [])

/-- The outer loop of `Docco::parse`, additionally pairing every emitted
section with the stream elements consumed while building it (documentation
scan first, then code scan). -/
def parseLoopR (md : List Char → List Char) (sym : List Char) :
    Nat → List LineRes → Nat → Option (List (Section × List LineRes))
  | 0, _, _ => none
  | fuel + 1, ls, idx =>
    match ls with
    | [] => some []
    | LineRes.err :: _ => some []
    | LineRes.ok l :: rest =>
      if l = [] then parseLoopR md sym fuel rest idx
      else
        match parseLoopR md sym fuel
            (parse_codeR sym (parse_docR sym (LineRes.ok l :: rest) []).1 []).1
            (idx + 1) with
        | none => none
        | some rows =>
          some (({ num := idx
                   docs_html := md (parse_docR sym (LineRes.ok l :: rest) []).2.1
                   code_html :=
                     (parse_codeR sym (parse_docR sym (LineRes.ok l :: rest) []).1 []).2.1 },
                 (parse_docR sym (LineRes.ok l :: rest) []).2.2 ++
                   (parse_codeR sym (parse_docR sym (LineRes.ok l :: rest) []).1 []).2.2)
              :: rows)

/-- The condition under which the code scan stops without consuming the
head of the stream: end of input, a failed read, or a next line that is
blank after trimming or starts with the comment delimiter. -/
def codeScanStops (sym : List Char) : List LineRes → Prop
  | [] => True
  | LineRes.err :: _ => True
  | LineRes.ok l :: _ =>
    ¬(strStartsWith (trimStartL l) sym = false ∧ trimStartL l ≠ [])

/-! ## Helper lemmas about the embedded string operations -/

theorem length_le_of_strStartsWith :
    ∀ (s p : List Char), strStartsWith s p = true → p.length ≤ s.length
  | _, [], _ => Nat.zero_le _
  | [], _ :: _, h => by simp [strStartsWith] at h
  | c :: cs, q :: qs, h => by
    simp only [strStartsWith, Bool.and_eq_true] at h
    simpa using Nat.succ_le_succ (length_le_of_strStartsWith cs qs h.2)

theorem strStartsWith_append :
    ∀ (a b p : List Char), strStartsWith a p = true → strStartsWith (a ++ b) p = true
  | _, _, [], _ => by simp [strStartsWith]
  | [], _, _ :: _, h => by simp [strStartsWith] at h
  | c :: cs, b, q :: qs, h => by
    simp only [strStartsWith, Bool.and_eq_true] at h ⊢
    exact ⟨h.1, strStartsWith_append cs b qs h.2⟩

theorem trimEndL_eq_append (t : List Char) : ∃ ws, t = trimEndL t ++ ws := by
  refine ⟨(t.reverse.takeWhile fun c => c.isWhitespace).reverse, ?_⟩
  unfold trimEndL
  rw [← List.reverse_append, List.takeWhile_append_dropWhile, List.reverse_reverse]

theorem strStartsWith_of_trimEndL (t p : List Char)
    (h : strStartsWith (trimEndL t) p = true) : strStartsWith t p = true := by
  obtain ⟨ws, hw⟩ := trimEndL_eq_append t
  rw [hw]
  exact strStartsWith_append _ _ _ h

theorem trimL_not_starts (l sym : List Char)
    (h : strStartsWith (trimStartL l) sym = false) :
    strStartsWith (trimL l) sym = false := by
  cases hs : strStartsWith (trimL l) sym with
  | false => rfl
  | true =>
    unfold trimL at hs
    rw [strStartsWith_of_trimEndL _ _ hs] at h
    exact h

theorem trimStartMatchesAux_not_starts (pat : List Char) (hpat : pat ≠ []) :
    ∀ (n : Nat) (s : List Char), s.length ≤ n →
      strStartsWith (trimStartMatchesAux pat n s) pat = false
  | 0, s, h => by
    have : s = [] := List.length_eq_zero.mp (Nat.le_zero.mp h)
    subst this
    cases pat with
    | nil => exact absurd rfl hpat
    | cons q qs => simp [trimStartMatchesAux, strStartsWith]
  | n + 1, s, h => by
    cases hs : strStartsWith s pat with
    | false => simp [trimStartMatchesAux, hs]
    | true =>
      have hlen : pat.length ≤ s.length := length_le_of_strStartsWith s pat hs
      have hpos : 0 < pat.length := List.length_pos.mpr hpat
      have : (s.drop pat.length).length ≤ n := by
        simp only [List.length_drop]
        omega
      simpa [trimStartMatchesAux, hs] using
        trimStartMatchesAux_not_starts pat hpat n (s.drop pat.length) this

theorem trimStartMatchesL_not_starts (s pat : List Char) (hpat : pat ≠ []) :
    strStartsWith (trimStartMatchesL s pat) pat = false := by
  unfold trimStartMatchesL
  rw [if_neg hpat]
  exact trimStartMatchesAux_not_starts pat hpat s.length s (Nat.le_refl _)

theorem concatMapL_append (f : Char → List Char) :
    ∀ (a b : List Char), concatMapL f (a ++ b) = concatMapL f a ++ concatMapL f b
  | [], _ => rfl
  | c :: cs, b => by
    show f c ++ concatMapL f (cs ++ b) = f c ++ concatMapL f cs ++ concatMapL f b
    rw [concatMapL_append f cs b, List.append_assoc]

theorem rustReplaceAux_single (c : Char) (rep : List Char) :
    ∀ (n : Nat) (s : List Char), s.length ≤ n →
      rustReplaceAux [c] rep n s =
        concatMapL (fun x => if x = c then rep else [x]) s
  | 0, s, h => by
    have : s = [] := List.length_eq_zero.mp (Nat.le_zero.mp h)
    subst this
    rfl
  | _ + 1, [], _ => rfl
  | n + 1, x :: rest, h => by
    have hr : rest.length ≤ n := by simpa using Nat.le_of_succ_le_succ h
    by_cases hx : x = c
    · simp [rustReplaceAux, strStartsWith, hx, concatMapL,
        rustReplaceAux_single c rep n rest hr]
    · simp [rustReplaceAux, strStartsWith, hx, concatMapL,
        rustReplaceAux_single c rep n rest hr]

theorem rustReplace_single (s : List Char) (c : Char) (rep : List Char) :
    rustReplace s [c] rep = concatMapL (fun x => if x = c then rep else [x]) s := by
  unfold rustReplace
  rw [if_neg (by simp)]
  exact rustReplaceAux_single c rep s.length s (Nat.le_refl _)

theorem escapeLine_eq_concatMap (l : List Char) :
    escapeLine l = concatMapL escChar l := by
  unfold escapeLine
  rw [rustReplace_single, rustReplace_single]
  induction l with
  | nil => rfl
  | cons c cs ih =>
    rw [concatMapL, concatMapL_append, ih, concatMapL]
    congr 1
    by_cases h1 : c = '<'
    · subst h1; decide
    · by_cases h2 : c = '>'
      · subst h2; decide
      · simp [escChar, h1, h2, concatMapL]

/-! ## C5: delimiter stripping on ordinary documentation lines -/

/-- C5, counterexample: with delimiter `#`, the documentation line `## x`
has ALL leading `#` repetitions removed by `parse_doc`
(`trim_start_matches` semantics), so the appended text is `" x\n"` and not
the single-removal result `"# x\n"` the claim describes. -/
theorem c5_delimiter_strip_counterexample :
    (parse_doc ['#'] [LineRes.ok ['#', '#', ' ', 'x']] []).2 = [' ', 'x', '\n'] ∧
    (parse_doc ['#'] [LineRes.ok ['#', '#', ' ', 'x']] []).2 ≠
      stripDelimOnce ['#'] (trimStartL ['#', '#', ' ', 'x']) ++ ['\n'] := by
  decide

/-- C5, amended: a documentation line whose trimmed form starts with the
comment delimiter but not with `///` is appended as the line trimmed of
leading whitespace with ALL leading repetitions of the delimiter removed
(Rust `trim_start_matches`), followed by a newline; in particular the
appended text no longer starts with the delimiter. -/
theorem c5_delimiter_strip_amended (sym l : List Char) (rest : List LineRes)
    (buf : List Char) (hsym : sym ≠ [])
    (h1 : strStartsWith (trimL l) sym = true)
    (h2 : strStartsWith (trimL l) ['/', '/', '/'] = false) :
    parse_doc sym (LineRes.ok l :: rest) buf =
      parse_doc sym rest (buf ++ trimStartMatchesL (trimStartL l) sym ++ ['\n']) ∧
    strStartsWith (trimStartMatchesL (trimStartL l) sym) sym = false :=
  ⟨by simp [parse_doc, h1, h2], trimStartMatchesL_not_starts _ _ hsym⟩

/-- Witness for the amended C5 at a concrete input. -/
theorem c5_delimiter_strip_amended_witness :
    parse_doc ['#'] [LineRes.ok ['#', '#', ' ', 'x']] [] =
      parse_doc ['#'] []
        ([] ++ trimStartMatchesL (trimStartL ['#', '#', ' ', 'x']) ['#'] ++ ['\n']) ∧
    strStartsWith (trimStartMatchesL (trimStartL ['#', '#', ' ', 'x']) ['#']) ['#'] =
      false :=
  c5_delimiter_strip_amended ['#'] ['#', '#', ' ', 'x'] [] [] (by decide)
    (by decide) (by decide)

/-! ## C7: angle-bracket escaping of code lines -/

/-- C7: a code line consumed by the code scan is appended with every `<`
replaced by the three characters `&lt` and every `>` by `&gt` (no trailing
semicolon), each occurrence independently, before the newline handling. -/
theorem c7_code_escaping (sym l : List Char) (rest : List LineRes)
    (buf : List Char) (hdoc : strStartsWith (trimStartL l) sym = false)
    (hne : trimStartL l ≠ []) :
    parse_code sym (LineRes.ok l :: rest) buf =
      parse_code sym rest
        (buf ++ concatMapL escChar l ++
          (if strEndsWith (trimStartL l) ['\n'] then [] else ['\n'])) := by
  by_cases hnl : strEndsWith (trimStartL l) ['\n'] <;>
    simp [parse_code, hdoc, hne, hnl, escapeLine_eq_concatMap, List.append_assoc]

/-- Witness for C7 at a concrete input containing both `<` and `>`. -/
theorem c7_code_escaping_witness :
    parse_code ['/', '/'] [LineRes.ok ['a', '<', 'b', '>']] [] =
      parse_code ['/', '/'] []
        ([] ++ concatMapL escChar ['a', '<', 'b', '>'] ++
          (if strEndsWith (trimStartL ['a', '<', 'b', '>']) ['\n'] then []
           else ['\n'])) :=
  c7_code_escaping ['/', '/'] ['a', '<', 'b', '>'] [] [] (by decide) (by decide)

/-! ## C1: parse() run twice -/

/-- C1, counterexample: on the one-line file `x`, one `parse()` yields one
section, but a second `parse()` on the unchanged file appends a second
copy (`self.sections` is never cleared and `idx` restarts at 0), so the
sequence after two runs is not the sequence after one. -/
theorem c1_parse_twice_counterexample :
    Docco.parse id ['/', '/'] [] 2 (some [LineRes.ok ['x']]) =
        some (Except.ok [⟨0, [], ['x', '\n']⟩]) ∧
    Docco.parse id ['/', '/'] [⟨0, [], ['x', '\n']⟩] 2 (some [LineRes.ok ['x']]) =
        some (Except.ok [⟨0, [], ['x', '\n']⟩, ⟨0, [], ['x', '\n']⟩]) ∧
    ([⟨0, [], ['x', '\n']⟩, ⟨0, [], ['x', '\n']⟩] : List Section) ≠
        [⟨0, [], ['x', '\n']⟩] := by
  refine ⟨rfl, rfl, ?_⟩
  decide

/-- C1, amended: a second `parse()` of the same unchanged file appends a
second, identical copy of the section sequence to the sections already on
the document, rather than reproducing it: starting from the result `out`
of a first parse, the second parse succeeds with `out ++ out`. -/
theorem c1_parse_twice_amended (md : List Char → List Char) (sym : List Char)
    (ls : List LineRes) (fuel : Nat) (out : List Section)
    (h : Docco.parse md sym [] fuel (some ls) = some (Except.ok out)) :
    Docco.parse md sym out fuel (some ls) = some (Except.ok (out ++ out)) := by
  cases hpl : parseLoop md sym fuel ls 0 with
  | none => simp [Docco.parse, hpl] at h
  | some o =>
    simp only [Docco.parse, hpl, Option.map_some', Option.some.injEq,
      List.nil_append, Except.ok.injEq] at h
    simp [Docco.parse, hpl, h]

/-- Witness for the amended C1 at a concrete input. -/
theorem c1_parse_twice_amended_witness :
    Docco.parse id ['/', '/'] [⟨0, [], ['x', '\n']⟩] 2 (some [LineRes.ok ['x']]) =
      some (Except.ok ([⟨0, [], ['x', '\n']⟩] ++ [⟨0, [], ['x', '\n']⟩])) :=
  c1_parse_twice_amended id ['/', '/'] [LineRes.ok ['x']] 2
    [⟨0, [], ['x', '\n']⟩] rfl

/-! ## C2: missing file-name extension -/

/-- C2 (code bug): for the extension-less source path `Makefile` (an
existing regular file), `Docco::new` fails with `InvalidSourceFile`, not
with the `NoExtension` kind the claim names — the `NoExtension` variant of
`error.rs` is never constructed anywhere in the code. -/
theorem c2_no_extension_invalid_source :
    Docco.new LANGUAGES true ['M', 'a', 'k', 'e', 'f', 'i', 'l', 'e'] none false =
        Except.error Error.InvalidSourceFile ∧
    Error.InvalidSourceFile ≠ Error.NoExtension := by
  refine ⟨rfl, ?_⟩
  decide

/-! ## C4: termination of parse() -/

/-- C4 (code bug): on a file containing a line that consists only of
whitespace (here the single line `" "`), the outer loop of `parse()` never
terminates: the line is non-empty, so the blank-line skip does not consume
it, and neither scan consumes it either (its trimmed form is empty), so
every iteration emits an empty section and leaves the stream unchanged —
`parseLoop` returns `none` at every fuel bound. -/
theorem c4_whitespace_line_diverges (fuel idx : Nat) :
    parseLoop id ['/', '/'] fuel [LineRes.ok [' ']] idx = none := by
  induction fuel generalizing idx with
  | zero => rfl
  | succ n ih =>
    have h1 : parse_doc ['/', '/'] [LineRes.ok [' ']] [] =
        ([LineRes.ok [' ']], []) := by decide
    have h2 : parse_code ['/', '/'] [LineRes.ok [' ']] [] =
        ([LineRes.ok [' ']], []) := by decide
    simp only [parseLoop, h1, h2]
    rw [if_neg (by decide : ¬([' '] : List Char) = [])]
    simp [h1, h2, ih]

/-! ## Structure lemmas for the two scans -/

theorem parse_docR_proj (sym : List Char) :
    ∀ (ls : List LineRes) (buf : List Char),
      (parse_docR sym ls buf).1 = (parse_doc sym ls buf).1 ∧
      (parse_docR sym ls buf).2.1 = (parse_doc sym ls buf).2
  | [], _ => ⟨rfl, rfl⟩
  | LineRes.err :: _, _ => ⟨rfl, rfl⟩
  | LineRes.ok l :: rest, buf => by
    by_cases h1 : strStartsWith (trimL l) sym = true
    · by_cases h2 : strStartsWith (trimL l) ['/', '/', '/'] = true
      · simpa [parse_docR, parse_doc, h1, h2] using
          parse_docR_proj sym rest (buf ++ trimStartL l ++ ['\n'])
      · simpa [parse_docR, parse_doc, h1, h2] using
          parse_docR_proj sym rest
            (buf ++ trimStartMatchesL (trimStartL l) sym ++ ['\n'])
    · simp [parse_docR, parse_doc, h1]

theorem parse_docR_split (sym : List Char) :
    ∀ (ls : List LineRes) (buf : List Char),
      (parse_docR sym ls buf).2.2 ++ (parse_docR sym ls buf).1 = ls
  | [], _ => rfl
  | LineRes.err :: _, _ => rfl
  | LineRes.ok l :: rest, buf => by
    by_cases h1 : strStartsWith (trimL l) sym = true
    · by_cases h2 : strStartsWith (trimL l) ['/', '/', '/'] = true
      · simpa [parse_docR, h1, h2] using
          parse_docR_split sym rest (buf ++ trimStartL l ++ ['\n'])
      · simpa [parse_docR, h1, h2] using
          parse_docR_split sym rest
            (buf ++ trimStartMatchesL (trimStartL l) sym ++ ['\n'])
    · simp [parse_docR, h1]

theorem parse_codeR_proj (sym : List Char) :
    ∀ (ls : List LineRes) (buf : List Char),
      (parse_codeR sym ls buf).1 = (parse_code sym ls buf).1 ∧
      (parse_codeR sym ls buf).2.1 = (parse_code sym ls buf).2
  | [], _ => ⟨rfl, rfl⟩
  | LineRes.err :: _, _ => ⟨rfl, rfl⟩
  | LineRes.ok l :: rest, buf => by
    by_cases h1 : strStartsWith (trimStartL l) sym = false ∧ trimStartL l ≠ []
    · by_cases h2 : strEndsWith (trimStartL l) ['\n'] = true
      · simpa [parse_codeR, parse_code, h1, h2] using
          parse_codeR_proj sym rest (buf ++ escapeLine l)
      · simpa [parse_codeR, parse_code, h1, h2] using
          parse_codeR_proj sym rest (buf ++ escapeLine l ++ ['\n'])
    · simp [parse_codeR, parse_code, h1]

theorem parse_codeR_split (sym : List Char) :
    ∀ (ls : List LineRes) (buf : List Char),
      (parse_codeR sym ls buf).2.2 ++ (parse_codeR sym ls buf).1 = ls
  | [], _ => rfl
  | LineRes.err :: _, _ => rfl
  | LineRes.ok l :: rest, buf => by
    by_cases h1 : strStartsWith (trimStartL l) sym = false ∧ trimStartL l ≠ []
    · by_cases h2 : strEndsWith (trimStartL l) ['\n'] = true
      · simpa [parse_codeR, h1, h2] using
          parse_codeR_split sym rest (buf ++ escapeLine l)
      · simpa [parse_codeR, h1, h2] using
          parse_codeR_split sym rest (buf ++ escapeLine l ++ ['\n'])
    · simp [parse_codeR, h1]

theorem parse_doc_rest_mem (sym : List Char) (ls : List LineRes)
    (buf : List Char) (x : LineRes) (hx : x ∈ (parse_doc sym ls buf).1) :
    x ∈ ls := by
  rw [← (parse_docR_proj sym ls buf).1] at hx
  rw [← parse_docR_split sym ls buf]
  exact List.mem_append_right _ hx

theorem parse_code_rest_mem (sym : List Char) (ls : List LineRes)
    (buf : List Char) (x : LineRes) (hx : x ∈ (parse_code sym ls buf).1) :
    x ∈ ls := by
  rw [← (parse_codeR_proj sym ls buf).1] at hx
  rw [← parse_codeR_split sym ls buf]
  exact List.mem_append_right _ hx

/-! ## C3: behaviour at a failed mid-file line read -/

theorem parse_doc_append_err (sym : List Char) :
    ∀ (pre post : List LineRes) (buf : List Char),
      (∀ x ∈ pre, x ≠ LineRes.err) →
      parse_doc sym (pre ++ LineRes.err :: post) buf =
        ((parse_doc sym pre buf).1 ++ LineRes.err :: post,
         (parse_doc sym pre buf).2)
  | [], _, _, _ => by simp [parse_doc]
  | LineRes.err :: _, _, _, hok =>
    absurd rfl (hok _ (List.mem_cons_self _ _))
  | LineRes.ok l :: pre', post, buf, hok => by
    have hok' : ∀ x ∈ pre', x ≠ LineRes.err :=
      fun x hx => hok x (List.mem_cons_of_mem _ hx)
    by_cases h1 : strStartsWith (trimL l) sym = true
    · by_cases h2 : strStartsWith (trimL l) ['/', '/', '/'] = true
      · simpa [parse_doc, h1, h2] using
          parse_doc_append_err sym pre' post (buf ++ trimStartL l ++ ['\n']) hok'
      · simpa [parse_doc, h1, h2] using
          parse_doc_append_err sym pre' post
            (buf ++ trimStartMatchesL (trimStartL l) sym ++ ['\n']) hok'
    · simp [parse_doc, h1]

theorem parse_code_append_err (sym : List Char) :
    ∀ (pre post : List LineRes) (buf : List Char),
      (∀ x ∈ pre, x ≠ LineRes.err) →
      parse_code sym (pre ++ LineRes.err :: post) buf =
        ((parse_code sym pre buf).1 ++ LineRes.err :: post,
         (parse_code sym pre buf).2)
  | [], _, _, _ => by simp [parse_code]
  | LineRes.err :: _, _, _, hok =>
    absurd rfl (hok _ (List.mem_cons_self _ _))
  | LineRes.ok l :: pre', post, buf, hok => by
    have hok' : ∀ x ∈ pre', x ≠ LineRes.err :=
      fun x hx => hok x (List.mem_cons_of_mem _ hx)
    by_cases h1 : strStartsWith (trimStartL l) sym = false ∧ trimStartL l ≠ []
    · by_cases h2 : strEndsWith (trimStartL l) ['\n'] = true
      · simpa [parse_code, h1, h2] using
          parse_code_append_err sym pre' post (buf ++ escapeLine l) hok'
      · simpa [parse_code, h1, h2] using
          parse_code_append_err sym pre' post (buf ++ escapeLine l ++ ['\n']) hok'
    · simp [parse_code, h1]

theorem parseLoop_append_err (md : List Char → List Char) (sym : List Char) :
    ∀ (fuel : Nat) (pre post : List LineRes) (idx : Nat),
      (∀ x ∈ pre, x ≠ LineRes.err) →
      parseLoop md sym fuel (pre ++ LineRes.err :: post) idx =
        parseLoop md sym fuel pre idx
  | 0, _, _, _, _ => rfl
  | _ + 1, [], _, _, _ => by simp [parseLoop]
  | _ + 1, LineRes.err :: _, _, _, hok =>
    absurd rfl (hok _ (List.mem_cons_self _ _))
  | fuel + 1, LineRes.ok l :: pre', post, idx, hok => by
    have hok' : ∀ x ∈ pre', x ≠ LineRes.err :=
      fun x hx => hok x (List.mem_cons_of_mem _ hx)
    by_cases hl : l = []
    · subst hl
      simpa [parseLoop] using parseLoop_append_err md sym fuel pre' post idx hok'
    · have hd := parse_doc_append_err sym (LineRes.ok l :: pre') post [] hok
      have hdm : ∀ x ∈ (parse_doc sym (LineRes.ok l :: pre') []).1,
          x ≠ LineRes.err :=
        fun x hx => hok x (parse_doc_rest_mem sym _ [] x hx)
      have hc := parse_code_append_err sym
        (parse_doc sym (LineRes.ok l :: pre') []).1 post [] hdm
      have hcm : ∀ x ∈
          (parse_code sym (parse_doc sym (LineRes.ok l :: pre') []).1 []).1,
          x ≠ LineRes.err :=
        fun x hx => hdm x (parse_code_rest_mem sym _ [] x hx)
      have hrec := parseLoop_append_err md sym fuel
        (parse_code sym (parse_doc sym (LineRes.ok l :: pre') []).1 []).1
        post (idx + 1) hcm
      simp only [List.cons_append] at hd hc hrec ⊢
      simp only [parseLoop, hd, hc, hrec, if_neg hl]

/-- C3, counterexample: on a stream whose second line read fails, `parse()`
returns SUCCESS with the one section built before the failure (the
`while let Some(Ok(..)) = peek()` loops silently stop at the `Err`), so no
I/O error is surfaced and the partial sections stay on the document. -/
theorem c3_read_error_counterexample :
    Docco.parse id ['/', '/'] [] 2
        (some [LineRes.ok ['x'], LineRes.err, LineRes.ok ['y']]) =
      some (Except.ok [⟨0, [], ['x', '\n']⟩]) ∧
    (some (Except.ok [(⟨0, [], ['x', '\n']⟩ : Section)]) :
        Option (Except Error (List Section))) ≠
      some (Except.error Error.Io) := by
  refine ⟨rfl, ?_⟩
  simp

/-- C3, amended: a failed mid-file line read does not surface as an I/O
error: `parse()` silently stops consuming at the failed read and returns
the same (successful) result as if the file had ended just before it,
keeping the sections accumulated so far.  (Only a failed file open yields
`Error::Io`.) -/
theorem c3_read_error_amended (md : List Char → List Char) (sym : List Char)
    (fuel : Nat) (pre post : List LineRes)
    (hpre : ∀ x ∈ pre, x ≠ LineRes.err) :
    Docco.parse md sym [] fuel (some (pre ++ LineRes.err :: post)) =
      Docco.parse md sym [] fuel (some pre) := by
  simp [Docco.parse, parseLoop_append_err md sym fuel pre post 0 hpre]

/-- Witness for the amended C3 at a concrete input. -/
theorem c3_read_error_amended_witness :
    Docco.parse id ['/', '/'] [] 2
        (some ([LineRes.ok ['x']] ++ LineRes.err :: [LineRes.ok ['y']])) =
      Docco.parse id ['/', '/'] [] 2 (some [LineRes.ok ['x']]) :=
  c3_read_error_amended id ['/', '/'] 2 [LineRes.ok ['x']] [LineRes.ok ['y']]
    (by decide)

/-! ## C6: section indices -/

theorem parseLoop_num (md : List Char → List Char) (sym : List Char) :
    ∀ (fuel : Nat) (ls : List LineRes) (idx : Nat) (secs : List Section),
      parseLoop md sym fuel ls idx = some secs →
      ∀ (i : Nat) (hi : i < secs.length), (secs.get ⟨i, hi⟩).num = idx + i
  | 0, _, _, _, h => by simp [parseLoop] at h
  | _ + 1, [], _, secs, h => by
    simp only [parseLoop, Option.some.injEq] at h
    subst h
    intro i hi
    simp at hi
  | _ + 1, LineRes.err :: _, _, secs, h => by
    simp only [parseLoop, Option.some.injEq] at h
    subst h
    intro i hi
    simp at hi
  | fuel + 1, LineRes.ok l :: rest, idx, secs, h => by
    by_cases hl : l = []
    · subst hl
      exact parseLoop_num md sym fuel rest idx secs
        (by simpa [parseLoop] using h)
    · revert h
      simp only [parseLoop]
      rw [if_neg hl]
      cases hinner : parseLoop md sym fuel
          (parse_code sym (parse_doc sym (LineRes.ok l :: rest) []).1 []).1
          (idx + 1) with
      | none => intro h; simp at h
      | some secs' =>
        intro h
        simp only [Option.some.injEq] at h
        subst h
        intro i hi
        match i with
        | 0 => simp
        | i + 1 =>
          have hrec := parseLoop_num md sym fuel _ (idx + 1) secs' hinner i
            (by simpa using hi)
          simp only [List.get_cons_succ, hrec]
          omega

/-- C6: after a single `parse()` from a freshly constructed document
(empty sections list), every section's `num` equals its zero-based position
in the sections list — indices start at 0, increase by one, with no
gaps. -/
theorem c6_section_indices (md : List Char → List Char) (sym : List Char)
    (ls : List LineRes) (fuel : Nat) (secs : List Section)
    (h : Docco.parse md sym [] fuel (some ls) = some (Except.ok secs)) :
    ∀ (i : Nat) (hi : i < secs.length), (secs.get ⟨i, hi⟩).num = i := by
  cases hpl : parseLoop md sym fuel ls 0 with
  | none => simp [Docco.parse, hpl] at h
  | some o =>
    simp only [Docco.parse, hpl, Option.map_some', Option.some.injEq,
      Except.ok.injEq, List.nil_append] at h
    subst h
    intro i hi
    simpa using parseLoop_num md sym fuel ls 0 o hpl i hi

/-- Witness for C6 at a concrete input. -/
theorem c6_section_indices_witness :
    (([⟨0, [], ['x', '\n']⟩] : List Section).get ⟨0, by decide⟩).num = 0 :=
  c6_section_indices id ['/', '/'] [LineRes.ok ['x']] 2 [⟨0, [], ['x', '\n']⟩]
    rfl 0 (by decide)

/-! ## C8: a blank line inside a code run -/

theorem ne_nil_of_trimStartL (l : List Char) (h : trimStartL l ≠ []) : l ≠ [] :=
  fun hl => h (by rw [hl]; rfl)

theorem parse_doc_stop (sym l : List Char) (rest : List LineRes) (buf : List Char)
    (h : strStartsWith (trimL l) sym = false) :
    parse_doc sym (LineRes.ok l :: rest) buf = (LineRes.ok l :: rest, buf) := by
  simp [parse_doc, h]

theorem parse_code_run (sym : List Char) :
    ∀ (run : List (List Char)) (tail : List LineRes),
      (∀ l ∈ run, strStartsWith (trimStartL l) sym = false ∧ trimStartL l ≠ []) →
      codeScanStops sym tail →
      ∃ chunk, ∀ buf : List Char,
        parse_code sym (run.map LineRes.ok ++ tail) buf = (tail, buf ++ chunk)
  | [], tail, _, hstop => by
    refine ⟨[], fun buf => ?_⟩
    rw [List.append_nil]
    cases tail with
    | nil => rfl
    | cons x rest =>
      cases x with
      | err => rfl
      | ok l =>
        simp only [codeScanStops] at hstop
        simp [parse_code, hstop]
  | l :: run', tail, hrun, hstop => by
    obtain ⟨hsw, hne⟩ := hrun l (List.mem_cons_self _ _)
    have hrun' : ∀ m ∈ run',
        strStartsWith (trimStartL m) sym = false ∧ trimStartL m ≠ [] :=
      fun m hm => hrun m (List.mem_cons_of_mem _ hm)
    obtain ⟨chunk', hch⟩ := parse_code_run sym run' tail hrun' hstop
    by_cases hnl : strEndsWith (trimStartL l) ['\n'] = true
    · refine ⟨escapeLine l ++ chunk', fun buf => ?_⟩
      simp only [List.map_cons, List.cons_append, parse_code, List.append_eq]
      rw [if_pos ⟨hsw, hne⟩]
      simp only [hnl, if_true]
      rw [hch (buf ++ escapeLine l)]
      simp [List.append_assoc]
    · refine ⟨escapeLine l ++ ['\n'] ++ chunk', fun buf => ?_⟩
      simp only [List.map_cons, List.cons_append, parse_code, List.append_eq]
      rw [if_pos ⟨hsw, hne⟩]
      simp only [hnl, Bool.false_eq_true, if_false]
      rw [hch (buf ++ escapeLine l ++ ['\n'])]
      simp [List.append_assoc]

theorem parseLoop_mono (md : List Char → List Char) (sym : List Char) :
    ∀ (f1 f2 : Nat) (ls : List LineRes) (idx : Nat) (r : List Section),
      f1 ≤ f2 → parseLoop md sym f1 ls idx = some r →
      parseLoop md sym f2 ls idx = some r
  | 0, _, _, _, _, _, h => by simp [parseLoop] at h
  | f1 + 1, f2, ls, idx, r, hle, h => by
    obtain ⟨f2', rfl⟩ : ∃ f2', f2 = f2' + 1 := ⟨f2 - 1, by omega⟩
    have hle' : f1 ≤ f2' := by omega
    cases ls with
    | nil => simpa [parseLoop] using (by simpa [parseLoop] using h)
    | cons x rest =>
      cases x with
      | err => simpa [parseLoop] using (by simpa [parseLoop] using h)
      | ok l =>
        by_cases hl : l = []
        · subst hl
          simp only [parseLoop, if_pos rfl] at h ⊢
          exact parseLoop_mono md sym f1 f2' rest idx r hle' h
        · revert h
          simp only [parseLoop]
          rw [if_neg hl, if_neg hl]
          cases hinner : parseLoop md sym f1
              (parse_code sym (parse_doc sym (LineRes.ok l :: rest) []).1 []).1
              (idx + 1) with
          | none => intro h; simp at h
          | some secs =>
            intro h
            rw [parseLoop_mono md sym f1 f2' _ (idx + 1) secs hle' hinner]
            exact h

theorem parseLoop_code_section (md : List Char → List Char) (sym : List Char)
    (run : List (List Char)) (tail : List LineRes) (fuel idx : Nat)
    (hrun : run ≠ [])
    (hc : ∀ l ∈ run, strStartsWith (trimStartL l) sym = false ∧ trimStartL l ≠ [])
    (hstop : codeScanStops sym tail) :
    ∃ chunk,
      parseLoop md sym (fuel + 1) (run.map LineRes.ok ++ tail) idx =
        (match parseLoop md sym fuel tail (idx + 1) with
         | none => none
         | some secs => some (⟨idx, md [], chunk⟩ :: secs)) := by
  obtain ⟨ch, hch⟩ := parse_code_run sym run tail hc hstop
  cases run with
  | nil => exact absurd rfl hrun
  | cons l0 run' =>
    obtain ⟨hsw0, hne0⟩ := hc l0 (List.mem_cons_self _ _)
    have hl0 : l0 ≠ [] := ne_nil_of_trimStartL _ hne0
    have hds : strStartsWith (trimL l0) sym = false := trimL_not_starts _ _ hsw0
    refine ⟨ch, ?_⟩
    have hch0 := hch []
    simp only [List.map_cons, List.cons_append] at hch0 ⊢
    simp only [parseLoop]
    rw [if_neg hl0, parse_doc_stop sym l0 _ [] hds]
    dsimp only
    rw [hch0]
    simp

/-- C8: a file consisting of a non-empty run of code lines, exactly one
empty line, then another non-empty run of code lines (no documentation
lines anywhere) parses into exactly two sections, and the second section's
documentation part is empty (both are, in fact — the Markdown rendering of
the empty buffer being empty). -/
theorem c8_blank_line_two_sections (md : List Char → List Char) (sym : List Char)
    (run1 run2 : List (List Char)) (fuel : Nat)
    (h1 : run1 ≠ []) (h2 : run2 ≠ [])
    (hc : ∀ l ∈ run1 ++ run2,
      strStartsWith (trimStartL l) sym = false ∧ trimStartL l ≠ [])
    (hmd : md [] = []) (hfuel : 4 ≤ fuel) :
    ∃ c1 c2,
      parseLoop md sym fuel
          (run1.map LineRes.ok ++ LineRes.ok [] :: run2.map LineRes.ok) 0 =
        some [⟨0, [], c1⟩, ⟨1, [], c2⟩] := by
  have hc1 : ∀ l ∈ run1,
      strStartsWith (trimStartL l) sym = false ∧ trimStartL l ≠ [] :=
    fun l hl => hc l (List.mem_append_left _ hl)
  have hc2 : ∀ l ∈ run2,
      strStartsWith (trimStartL l) sym = false ∧ trimStartL l ≠ [] :=
    fun l hl => hc l (List.mem_append_right _ hl)
  have hstop1 : codeScanStops sym (LineRes.ok [] :: run2.map LineRes.ok) :=
    fun hcon => hcon.2 rfl
  obtain ⟨ch1, hstep1⟩ := parseLoop_code_section md sym run1
    (LineRes.ok [] :: run2.map LineRes.ok) 3 0 h1 hc1 hstop1
  obtain ⟨ch2, hstep2⟩ := parseLoop_code_section md sym run2 [] 1 1 h2 hc2 trivial
  have hblank : parseLoop md sym 3 (LineRes.ok [] :: run2.map LineRes.ok) 1 =
      parseLoop md sym 2 (run2.map LineRes.ok) 1 := by
    simp [parseLoop]
  have h2step : parseLoop md sym 2 (run2.map LineRes.ok) 1 =
      some [⟨1, md [], ch2⟩] := by
    have : run2.map LineRes.ok ++ [] = run2.map LineRes.ok := List.append_nil _
    rw [← this]
    rw [hstep2]
    simp [parseLoop]
  have hat4 : parseLoop md sym 4
      (run1.map LineRes.ok ++ LineRes.ok [] :: run2.map LineRes.ok) 0 =
      some [⟨0, md [], ch1⟩, ⟨1, md [], ch2⟩] := by
    rw [hstep1, hblank, h2step]
  refine ⟨ch1, ch2, ?_⟩
  have := parseLoop_mono md sym 4 fuel _ 0 _ hfuel hat4
  rwa [hmd] at this

/-- Witness for C8 at a concrete input. -/
theorem c8_blank_line_two_sections_witness :
    ∃ c1 c2,
      parseLoop id ['/', '/'] 4
          ([['a']].map LineRes.ok ++ LineRes.ok [] :: [['b']].map LineRes.ok) 0 =
        some [⟨0, [], c1⟩, ⟨1, [], c2⟩] :=
  c8_blank_line_two_sections id ['/', '/'] [['a']] [['b']] 4 (by decide)
    (by decide) (by decide) rfl (by decide)

/-! ## C9: lines consumed by the sections partition the non-blank lines -/

theorem parse_docR_consumed (sym : List Char) (hsym : sym ≠ []) :
    ∀ (ls : List LineRes) (buf : List Char) (x : LineRes),
      x ∈ (parse_docR sym ls buf).2.2 → ∃ l, x = LineRes.ok l ∧ l ≠ []
  | [], _, x, hx => absurd hx (by simp [parse_docR])
  | LineRes.err :: _, _, x, hx => absurd hx (by simp [parse_docR])
  | LineRes.ok l :: rest, buf, x, hx => by
    by_cases h1 : strStartsWith (trimL l) sym = true
    · have hlne : l ≠ [] := by
        intro hl
        rw [hl] at h1
        cases sym with
        | nil => exact hsym rfl
        | cons s ss =>
          simp [trimL, trimStartL, trimEndL, strStartsWith] at h1
      simp only [parse_docR] at hx
      rw [if_pos h1] at hx
      by_cases h2 : strStartsWith (trimL l) ['/', '/', '/'] = true
      · rw [if_pos h2] at hx
        dsimp only at hx
        rcases List.mem_cons.mp hx with hx0 | hx
        · exact ⟨l, hx0, hlne⟩
        · exact parse_docR_consumed sym hsym rest _ x hx
      · rw [if_neg h2] at hx
        dsimp only at hx
        rcases List.mem_cons.mp hx with hx0 | hx
        · exact ⟨l, hx0, hlne⟩
        · exact parse_docR_consumed sym hsym rest _ x hx
    · simp [parse_docR, h1] at hx

theorem parse_codeR_consumed (sym : List Char) :
    ∀ (ls : List LineRes) (buf : List Char) (x : LineRes),
      x ∈ (parse_codeR sym ls buf).2.2 → ∃ l, x = LineRes.ok l ∧ l ≠ []
  | [], _, x, hx => absurd hx (by simp [parse_codeR])
  | LineRes.err :: _, _, x, hx => absurd hx (by simp [parse_codeR])
  | LineRes.ok l :: rest, buf, x, hx => by
    by_cases h1 : strStartsWith (trimStartL l) sym = false ∧ trimStartL l ≠ []
    · have hlne : l ≠ [] := ne_nil_of_trimStartL _ h1.2
      simp only [parse_codeR] at hx
      rw [if_pos h1] at hx
      dsimp only at hx
      rcases List.mem_cons.mp hx with hx0 | hx
      · exact ⟨l, hx0, hlne⟩
      · exact parse_codeR_consumed sym rest _ x hx
    · simp [parse_codeR, h1] at hx

theorem parseLoopR_proj (md : List Char → List Char) (sym : List Char) :
    ∀ (fuel : Nat) (ls : List LineRes) (idx : Nat),
      (parseLoopR md sym fuel ls idx).map (List.map Prod.fst) =
        parseLoop md sym fuel ls idx
  | 0, _, _ => rfl
  | _ + 1, [], _ => rfl
  | _ + 1, LineRes.err :: _, _ => rfl
  | fuel + 1, LineRes.ok l :: rest, idx => by
    by_cases hl : l = []
    · subst hl
      simpa [parseLoopR, parseLoop] using parseLoopR_proj md sym fuel rest idx
    · have hd1 := (parse_docR_proj sym (LineRes.ok l :: rest) []).1
      have hd2 := (parse_docR_proj sym (LineRes.ok l :: rest) []).2
      have hc1 := (parse_codeR_proj sym (parse_docR sym (LineRes.ok l :: rest) []).1 []).1
      have hc2 := (parse_codeR_proj sym (parse_docR sym (LineRes.ok l :: rest) []).1 []).2
      have hrec := parseLoopR_proj md sym fuel
        (parse_code sym (parse_doc sym (LineRes.ok l :: rest) []).1 []).1 (idx + 1)
      simp only [parseLoopR, parseLoop]
      rw [if_neg hl, if_neg hl, hc1, hc2, hd1, hd2]
      cases hinner : parseLoopR md sym fuel
          (parse_code sym (parse_doc sym (LineRes.ok l :: rest) []).1 []).1
          (idx + 1) with
      | none =>
        rw [hinner] at hrec
        simp only [Option.map_none'] at hrec
        rw [← hrec]
        simp
      | some rows =>
        rw [hinner] at hrec
        simp only [Option.map_some'] at hrec
        rw [← hrec]
        simp

theorem parseLoopR_flatten (md : List Char → List Char) (sym : List Char)
    (hsym : sym ≠ []) :
    ∀ (fuel : Nat) (ls : List LineRes) (idx : Nat)
      (rows : List (Section × List LineRes)),
      (∀ x ∈ ls, x ≠ LineRes.err) →
      parseLoopR md sym fuel ls idx = some rows →
      (rows.map Prod.snd).flatten =
        ls.filter (fun x => decide (x ≠ LineRes.ok []))
  | 0, _, _, _, _, h => by simp [parseLoopR] at h
  | _ + 1, [], _, rows, _, h => by
    simp only [parseLoopR, Option.some.injEq] at h
    subst h
    simp
  | _ + 1, LineRes.err :: _, _, _, hok, _ =>
    absurd rfl (hok _ (List.mem_cons_self _ _))
  | fuel + 1, LineRes.ok l :: rest, idx, rows, hok, h => by
    have hok' : ∀ x ∈ rest, x ≠ LineRes.err :=
      fun x hx => hok x (List.mem_cons_of_mem _ hx)
    by_cases hl : l = []
    · subst hl
      have hrec := parseLoopR_flatten md sym hsym fuel rest idx rows hok'
        (by simpa [parseLoopR] using h)
      rw [hrec, List.filter_cons_of_neg (by simp)]
    · revert h
      simp only [parseLoopR]
      rw [if_neg hl]
      cases hinner : parseLoopR md sym fuel
          (parse_codeR sym (parse_docR sym (LineRes.ok l :: rest) []).1 []).1
          (idx + 1) with
      | none => intro h; simp at h
      | some rows' =>
        intro h
        simp only [Option.some.injEq] at h
        subst h
        have hds := parse_docR_split sym (LineRes.ok l :: rest) []
        have hcs := parse_codeR_split sym
          (parse_docR sym (LineRes.ok l :: rest) []).1 []
        have hokc : ∀ x ∈
            (parse_codeR sym (parse_docR sym (LineRes.ok l :: rest) []).1 []).1,
            x ≠ LineRes.err := by
          intro x hx
          apply hok
          rw [← hds]
          apply List.mem_append_right
          rw [← hcs]
          exact List.mem_append_right _ hx
        have hrec := parseLoopR_flatten md sym hsym fuel _ (idx + 1) rows' hokc
          hinner
        have hfd : (parse_docR sym (LineRes.ok l :: rest) []).2.2.filter
              (fun x => decide (x ≠ LineRes.ok [])) =
            (parse_docR sym (LineRes.ok l :: rest) []).2.2 := by
          rw [List.filter_eq_self]
          intro a ha
          obtain ⟨la, rfl, hla⟩ := parse_docR_consumed sym hsym _ _ a ha
          simp [hla]
        have hfc : (parse_codeR sym
              (parse_docR sym (LineRes.ok l :: rest) []).1 []).2.2.filter
              (fun x => decide (x ≠ LineRes.ok [])) =
            (parse_codeR sym (parse_docR sym (LineRes.ok l :: rest) []).1 []).2.2 := by
          rw [List.filter_eq_self]
          intro a ha
          obtain ⟨la, rfl, hla⟩ := parse_codeR_consumed sym _ _ a ha
          simp [hla]
        simp only [List.map_cons, List.flatten_cons]
        rw [hrec]
        conv_rhs => rw [← hds, ← hcs]
        rw [List.filter_append, List.filter_append, hfd, hfc,
          List.append_assoc]

/-- C9: on an error-free line stream that `parse()` finishes, the lines
consumed by the sections, concatenated in section order, reconstruct the
source file with exactly the empty lines elided: the instrumented loop
`parseLoopR` succeeds with rows whose section components are precisely the
sections `parseLoop` produces, and whose consumed-line components flatten
to the input stream filtered of empty lines. -/
theorem c9_line_partition (md : List Char → List Char) (sym : List Char)
    (fuel : Nat) (ls : List LineRes) (secs : List Section)
    (hsym : sym ≠ []) (hok : ∀ x ∈ ls, x ≠ LineRes.err)
    (h : parseLoop md sym fuel ls 0 = some secs) :
    ∃ rows, parseLoopR md sym fuel ls 0 = some rows ∧
      List.map Prod.fst rows = secs ∧
      (List.map Prod.snd rows).flatten =
        ls.filter (fun x => decide (x ≠ LineRes.ok [])) := by
  have hproj := parseLoopR_proj md sym fuel ls 0
  rw [h] at hproj
  cases hR : parseLoopR md sym fuel ls 0 with
  | none => rw [hR] at hproj; simp at hproj
  | some rows =>
    rw [hR] at hproj
    simp only [Option.map_some', Option.some.injEq] at hproj
    exact ⟨rows, rfl, hproj,
      parseLoopR_flatten md sym hsym fuel ls 0 rows hok hR⟩

/-- Witness for C9 at a concrete input (code, blank line, code). -/
theorem c9_line_partition_witness :
    ∃ rows, parseLoopR id ['/', '/'] 4
        [LineRes.ok ['x'], LineRes.ok [], LineRes.ok ['y']] 0 = some rows ∧
      List.map Prod.fst rows =
        [⟨0, [], ['x', '\n']⟩, ⟨1, [], ['y', '\n']⟩] ∧
      (List.map Prod.snd rows).flatten =
        [LineRes.ok ['x'], LineRes.ok [], LineRes.ok ['y']].filter
          (fun x => decide (x ≠ LineRes.ok [])) :=
  c9_line_partition id ['/', '/'] 4
    [LineRes.ok ['x'], LineRes.ok [], LineRes.ok ['y']]
    [⟨0, [], ['x', '\n']⟩, ⟨1, [], ['y', '\n']⟩] (by decide) (by decide) rfl

/-! ## C10: buffers end in a newline -/

theorem endsWith_newline_mem (t : List Char)
    (h : strEndsWith t ['\n'] = true) : '\n' ∈ t := by
  unfold strEndsWith at h
  cases hr : t.reverse with
  | nil => rw [hr] at h; simp [strStartsWith] at h
  | cons c cs =>
    rw [hr] at h
    simp only [strStartsWith, Bool.and_eq_true] at h
    have hc : c = '\n' := by
      have := h.1
      simpa using this
    have hm : '\n' ∈ t.reverse := by
      rw [hr, ← hc]
      exact List.mem_cons_self _ _
    exact List.mem_reverse.mp hm

theorem no_newline_not_endsWith (l : List Char) (h : '\n' ∉ l) :
    strEndsWith (trimStartL l) ['\n'] = false := by
  cases he : strEndsWith (trimStartL l) ['\n'] with
  | false => rfl
  | true =>
    exfalso
    apply h
    exact (List.dropWhile_sublist _).mem (endsWith_newline_mem _ he)

theorem parse_code_endsNL (sym : List Char) :
    ∀ (ls : List LineRes) (buf : List Char),
      (∀ l, LineRes.ok l ∈ ls → '\n' ∉ l) →
      (buf = [] ∨ buf.getLast? = some '\n') →
      ((parse_code sym ls buf).2 = [] ∨
        (parse_code sym ls buf).2.getLast? = some '\n')
  | [], _, _, hbuf => hbuf
  | LineRes.err :: _, _, _, hbuf => hbuf
  | LineRes.ok l :: rest, buf, hnl, hbuf => by
    by_cases h1 : strStartsWith (trimStartL l) sym = false ∧ trimStartL l ≠ []
    · have hend := no_newline_not_endsWith l (hnl l (List.mem_cons_self _ _))
      have hnl' : ∀ m, LineRes.ok m ∈ rest → '\n' ∉ m :=
        fun m hm => hnl m (List.mem_cons_of_mem _ hm)
      rw [show parse_code sym (LineRes.ok l :: rest) buf =
            parse_code sym rest (buf ++ escapeLine l ++ ['\n']) from by
          simp [parse_code, h1, hend]]
      exact parse_code_endsNL sym rest _ hnl' (Or.inr (by simp))
    · simp only [parse_code]
      rw [if_neg h1]
      exact hbuf

theorem parse_doc_endsNL (sym : List Char) :
    ∀ (ls : List LineRes) (buf : List Char),
      (buf = [] ∨ buf.getLast? = some '\n') →
      ((parse_doc sym ls buf).2 = [] ∨
        (parse_doc sym ls buf).2.getLast? = some '\n')
  | [], _, hbuf => hbuf
  | LineRes.err :: _, _, hbuf => hbuf
  | LineRes.ok l :: rest, buf, hbuf => by
    by_cases h1 : strStartsWith (trimL l) sym = true
    · by_cases h2 : strStartsWith (trimL l) ['/', '/', '/'] = true
      · rw [show parse_doc sym (LineRes.ok l :: rest) buf =
              parse_doc sym rest (buf ++ trimStartL l ++ ['\n']) from by
            simp [parse_doc, h1, h2]]
        exact parse_doc_endsNL sym rest _ (Or.inr (by simp))
      · rw [show parse_doc sym (LineRes.ok l :: rest) buf =
              parse_doc sym rest
                (buf ++ trimStartMatchesL (trimStartL l) sym ++ ['\n']) from by
            simp [parse_doc, h1, h2]]
        exact parse_doc_endsNL sym rest _ (Or.inr (by simp))
    · simp only [parse_doc]
      rw [if_neg h1]
      exact hbuf

theorem parseLoop_endsNL (md : List Char → List Char) (sym : List Char) :
    ∀ (fuel : Nat) (ls : List LineRes) (idx : Nat) (secs : List Section),
      (∀ l, LineRes.ok l ∈ ls → '\n' ∉ l) →
      parseLoop md sym fuel ls idx = some secs →
      ∀ s ∈ secs,
        (s.code_html = [] ∨ s.code_html.getLast? = some '\n') ∧
        ∃ d, s.docs_html = md d ∧ (d = [] ∨ d.getLast? = some '\n')
  | 0, _, _, _, _, h => by simp [parseLoop] at h
  | _ + 1, [], _, secs, _, h => by
    simp only [parseLoop, Option.some.injEq] at h
    subst h
    intro s hs
    simp at hs
  | _ + 1, LineRes.err :: _, _, secs, _, h => by
    simp only [parseLoop, Option.some.injEq] at h
    subst h
    intro s hs
    simp at hs
  | fuel + 1, LineRes.ok l :: rest, idx, secs, hnl, h => by
    have hnl' : ∀ m, LineRes.ok m ∈ rest → '\n' ∉ m :=
      fun m hm => hnl m (List.mem_cons_of_mem _ hm)
    by_cases hl : l = []
    · subst hl
      exact parseLoop_endsNL md sym fuel rest idx secs hnl'
        (by simpa [parseLoop] using h)
    · have hnld : ∀ m, LineRes.ok m ∈ (parse_doc sym (LineRes.ok l :: rest) []).1 →
          '\n' ∉ m :=
        fun m hm => hnl m (parse_doc_rest_mem sym _ [] _ hm)
      have hnlc : ∀ m, LineRes.ok m ∈
          (parse_code sym (parse_doc sym (LineRes.ok l :: rest) []).1 []).1 →
          '\n' ∉ m :=
        fun m hm => hnld m (parse_code_rest_mem sym _ [] _ hm)
      revert h
      simp only [parseLoop]
      rw [if_neg hl]
      cases hinner : parseLoop md sym fuel
          (parse_code sym (parse_doc sym (LineRes.ok l :: rest) []).1 []).1
          (idx + 1) with
      | none => intro h; simp at h
      | some secs' =>
        intro h
        simp only [Option.some.injEq] at h
        subst h
        intro s hs
        rcases List.mem_cons.mp hs with hs0 | hs
        · subst hs0
          refine ⟨?_, ⟨(parse_doc sym (LineRes.ok l :: rest) []).2, rfl, ?_⟩⟩
          · exact parse_code_endsNL sym _ [] hnld (Or.inl rfl)
          · exact parse_doc_endsNL sym _ [] (Or.inl rfl)
        · exact parseLoop_endsNL md sym fuel _ (idx + 1) secs' hnlc hinner s hs

/-- C10: `BufRead::lines` never delivers a line containing a newline, so
the `unless it already ends in one` guard never fires: for a stream of
newline-free lines, after `parse()` every section's `code_html` is either
empty or ends with `'\n'`, and the buffer fed to the Markdown converter to
produce `docs_html` likewise is either empty or ends with `'\n'`. -/
theorem c10_trailing_newline (md : List Char → List Char) (sym : List Char)
    (fuel : Nat) (ls : List LineRes) (idx : Nat) (secs : List Section)
    (hnl : ∀ l, LineRes.ok l ∈ ls → '\n' ∉ l)
    (h : parseLoop md sym fuel ls idx = some secs) :
    ∀ s ∈ secs,
      (s.code_html = [] ∨ s.code_html.getLast? = some '\n') ∧
      ∃ d, s.docs_html = md d ∧ (d = [] ∨ d.getLast? = some '\n') :=
  parseLoop_endsNL md sym fuel ls idx secs hnl h

/-- Witness for C10 at a concrete input. -/
theorem c10_trailing_newline_witness :
    ((⟨0, [], ['x', '\n']⟩ : Section).code_html = [] ∨
      (⟨0, [], ['x', '\n']⟩ : Section).code_html.getLast? = some '\n') ∧
    ∃ d, (⟨0, [], ['x', '\n']⟩ : Section).docs_html = id d ∧
      (d = [] ∨ d.getLast? = some '\n') :=
  c10_trailing_newline id ['/', '/'] 2 [LineRes.ok ['x']] 0
    [⟨0, [], ['x', '\n']⟩]
    (by
      intro l hl
      simp only [List.mem_singleton, LineRes.ok.injEq] at hl
      subst hl
      decide)
    rfl ⟨0, [], ['x', '\n']⟩ (List.mem_cons_self _ _)

end Rocco
